import Mathlib

/-!
# Noise synthesis (`fnoise`) and block-mean downscaling (`subscale`)

A shallow embedding of `src/fnoise/algo.cpp` and `src/subscale/algo.cpp`.

Modelling conventions.

* The code is written once, over a type `F` of floating-point values with the
  operations of the program (`Arith F`): the `float` sum, product and
  quotient, the `double` product, the conversion `(float)` of a `double`, the
  conversion of an `int`, and the comparison `<`.  Two arithmetics are used:
  the exact one of a linear ordered field, in which no operation rounds, and
  `Fp`, in which a value is NaN or a rational number, every operation rounds
  to nearest, ties to even, to 24 bits (`float`) or 53 bits (`double`), NaN
  propagates and every comparison with NaN is false.  `Fp` has an unbounded
  exponent: overflow to infinity, subnormal numbers and the sign of zero are
  not represented.
* `sqrt`, `log`, `cos` and `M_PI` come from the C library; they are the fields
  of a `Libm F` argument.
* `drand48` reads a global generator; the generator is an explicit stream of
  draws with a read position, threaded through the code.
* `float *` buffers are lists; a read or a write outside a buffer is `none`.
* Sizes, dimensions and loop counters are non-negative `int`s, written as
  natural numbers.  `bits_output` is an `int` that `get_trunc_value` feeds to
  `pow`, and is an integer here.
* The `#pragma omp parallel for` lines only apply when `_OPENMP` is defined;
  the embedding is the sequential program.
-/

set_option linter.unusedSectionVars false

/-- The loop `for (int i = 0; i < n; i++) body(i)` over a state that a fault
(`none`) aborts. -/
def forLoop {σ : Type} (n : Nat) (body : Nat → σ → Option σ) (s : σ) : Option σ :=
  match n with
  | 0 => some s
  | k + 1 => (forLoop k body s).bind (body k)

/-- Read `buf[i]`. -/
def rd {K : Type} (buf : List K) (i : Nat) : Option K := buf[i]?

/-- Write `buf[i] = x`. -/
def wr {K : Type} (buf : List K) (i : Nat) (x : K) : Option (List K) :=
  if i < buf.length then some (buf.set i x) else none

/-- The floating-point operations of the program on values of type `F`:
`fadd`, `fmul`, `fdiv` are `+`, `*`, `/` on `float`s, `dmul` is `*` on
`double`s, `toFloat` is the conversion `(float) z` of a `double`, `ofInt` is
the conversion of an `int` (and the constants `0`, `2.0`, `-2.0`), and
`lt x y` is `x < y`.  The conversion of a `float` to `double` is exact and
is not written. -/
class Arith (F : Type) where
  fadd : F → F → F
  fmul : F → F → F
  fdiv : F → F → F
  dmul : F → F → F
  toFloat : F → F
  ofInt : Int → F
  lt : F → F → Bool

/-- The exact arithmetic of a linear ordered field: no operation rounds. -/
instance exactArith {K : Type} [LinearOrderedField K] : Arith K where
  fadd x y := x + y
  fmul x y := x * y
  fdiv x y := x / y
  dmul x y := x * y
  toFloat x := x
  ofInt n := (n : K)
  lt x y := decide (x < y)

/-- The integer nearest to `x`, the even one if `x` is half-way between two. -/
def rne (x : ℚ) : Int :=
  if x - ⌊x⌋ < 1 / 2 then ⌊x⌋
  else if 1 / 2 < x - ⌊x⌋ then ⌊x⌋ + 1
  else if ⌊x⌋ % 2 = 0 then ⌊x⌋ else ⌊x⌋ + 1

/-- Rounding of `q` to `p` significant bits, to nearest, ties to even: with
`2^e ≤ |q| < 2^(e+1)`, the nearest multiple of `2^(e - (p - 1))`. -/
def round_to (p : Nat) (q : ℚ) : ℚ :=
  rne (q / 2 ^ (Int.log 2 |q| - ((p : Int) - 1))) * 2 ^ (Int.log 2 |q| - ((p : Int) - 1))

/-- A floating-point value: NaN or a number. -/
inductive Fp where
  | nan
  | num (q : ℚ)
  deriving DecidableEq

/-- A rounded binary operation: NaN if an operand is NaN. -/
def Fp.op (p : Nat) (f : ℚ → ℚ → ℚ) : Fp → Fp → Fp
  | Fp.num x, Fp.num y => Fp.num (round_to p (f x y))
  | _, _ => Fp.nan

/-- The quotient of two `float`s; the quotient by zero, an infinity or NaN in
the program, is NaN here. -/
def Fp.div : Fp → Fp → Fp
  | Fp.num x, Fp.num y => if y = 0 then Fp.nan else Fp.num (round_to 24 (x / y))
  | _, _ => Fp.nan

/-- The conversion `(float)` of a `double`. -/
def Fp.narrow : Fp → Fp
  | Fp.num x => Fp.num (round_to 24 x)
  | Fp.nan => Fp.nan

/-- The comparison `x < y`: false if an operand is NaN. -/
def Fp.lt : Fp → Fp → Bool
  | Fp.num x, Fp.num y => decide (x < y)
  | _, _ => false

/-- The arithmetic of the program on `float` (24 bits) and `double` (53 bits). -/
instance fpArith : Arith Fp where
  fadd := Fp.op 24 (fun x y => x + y)
  fmul := Fp.op 24 (fun x y => x * y)
  fdiv := Fp.div
  dmul := Fp.op 53 (fun x y => x * y)
  toFloat := Fp.narrow
  ofInt n := Fp.num (round_to 24 n)
  lt := Fp.lt

instance fpZero : Zero Fp := ⟨Fp.num 0⟩

/-- The C library functions the noise engine calls, and `M_PI`. -/
structure Libm (K : Type) where
  sqrt : K → K
  log : K → K
  cos : K → K
  pi : K

/-- The state of the `drand48` generator: the stream of numbers it yields and
how many of them have been drawn. -/
structure Gen (K : Type) where
  draws : Nat → K
  pos : Nat

/-- One call of `drand48()`: the next number of the stream, and the advanced
generator. -/
def drand48 {K : Type} (g : Gen K) : K × Gen K :=
  (g.draws g.pos, ⟨g.draws, g.pos + 1⟩)

/-- Modelled from the spec: the image class `CImage` of the framework, which
is not among the sources.  An image has a width, a height, a bit depth and
one buffer of samples per channel. -/
structure CImage (K : Type) where
  width : Nat
  height : Nat
  bits_per_channel : Nat
  channels : List (List K)

/-- Modelled from the spec: every channel buffer of an image has exactly
`width * height` samples. -/
def CImage.wf {K : Type} (img : CImage K) : Prop :=
  ∀ c ∈ img.channels, c.length = img.width * img.height

/-- Modelled from the spec: the constructor `CImage(width, height, bits,
channels)` of the framework, which allocates the channel buffers. -/
def CImage.create {K : Type} [Zero K] (width height bits num_channels : Nat) : CImage K :=
  ⟨width, height, bits, List.replicate num_channels (List.replicate (width * height) 0)⟩

namespace fnoise

/-- Conversion of a `double` to `int`: the fractional part is discarded; a
value that a 32-bit `int` cannot hold has no defined result in C++, and the
x86-64 conversion instruction yields `INT_MIN` for it. -/
def double_to_int (x : ℚ) : Int :=
  let t : Int := if 0 ≤ x then ⌊x⌋ else ⌈x⌉
  if -2 ^ 31 ≤ t ∧ t < 2 ^ 31 then t else -2 ^ 31

/-- Function `get_trunc_value`: `return pow(2, bits) - 1;` with return type `int`. -/
def get_trunc_value (bits : Int) : Int :=
  double_to_int ((2 : ℚ) ^ bits - 1)

variable {F : Type} [Arith F]

/-- The body of the loop of `add_noise`, at index `i`, on the output buffer
and the generator. -/
def add_noise_body (m : Libm F) (u : List F) (std : F) (truncate : Bool)
    (v_max : Int) (i : Nat) (s : List F × Gen F) : Option (List F × Gen F) :=
  let (a, g1) := drand48 s.2
  let (b, g2) := drand48 g1
  let z : F := Arith.dmul
    (Arith.dmul std (m.sqrt (Arith.dmul (Arith.ofInt (-2)) (m.log a))))
    (m.cos (Arith.dmul (Arith.dmul (Arith.ofInt 2) m.pi) b))
  (rd u i).bind fun ui =>
  (wr s.1 i (Arith.fadd ui (Arith.toFloat z))).bind fun v1 =>
  if truncate then
    (rd v1 i).bind fun vi =>
    if Arith.lt vi (Arith.ofInt 0) then
      (wr v1 i (Arith.ofInt 0)).bind fun v2 => some (v2, g2)
    else
      if Arith.lt (Arith.ofInt v_max) vi then
        (wr v1 i (Arith.ofInt v_max)).bind fun v2 => some (v2, g2)
      else some (v1, g2)
  else some (v1, g2)

/-- Function `add_noise`: uniform noise of standard deviation `std` on the
`size` first samples of `u`, written to `v`. -/
def add_noise (m : Libm F) (u v : List F) (std : F) (truncate : Bool)
    (size : Nat) (bits_output : Int) (g : Gen F) : Option (List F × Gen F) :=
  let v_max := get_trunc_value bits_output
  forLoop size (add_noise_body m u std truncate v_max) (v, g)

/-- The standard deviation `float std = sqrt(A + B*u[i])` that
`add_noise_affine` computes for a sample of value `ui`. -/
def affine_std (m : Libm F) (A B ui : F) : F :=
  Arith.toFloat (m.sqrt (Arith.fadd A (Arith.fmul B ui)))

/-- The body of the loop of `add_noise_affine`, at index `i`. -/
def add_noise_affine_body (m : Libm F) (u : List F) (A B : F) (truncate : Bool)
    (v_max : Int) (i : Nat) (s : List F × Gen F) : Option (List F × Gen F) :=
  (rd u i).bind fun ui =>
  let std : F := affine_std m A B ui
  let (a, g1) := drand48 s.2
  let (b, g2) := drand48 g1
  let z : F := Arith.dmul
    (Arith.dmul std (m.sqrt (Arith.dmul (Arith.ofInt (-2)) (m.log a))))
    (m.cos (Arith.dmul (Arith.dmul (Arith.ofInt 2) m.pi) b))
  (rd u i).bind fun ui2 =>
  (wr s.1 i (Arith.fadd ui2 (Arith.toFloat z))).bind fun v1 =>
  if truncate then
    (rd v1 i).bind fun vi =>
    if Arith.lt vi (Arith.ofInt 0) then
      (wr v1 i (Arith.ofInt 0)).bind fun v2 => some (v2, g2)
    else
      if Arith.lt (Arith.ofInt v_max) vi then
        (wr v1 i (Arith.ofInt v_max)).bind fun v2 => some (v2, g2)
      else some (v1, g2)
  else some (v1, g2)

/-- Function `add_noise_affine`: noise of variance `A + B*u` on the `size`
first samples of `u`, written to `v`. -/
def add_noise_affine (m : Libm F) (u v : List F) (A B : F) (truncate : Bool)
    (size : Nat) (bits_output : Int) (g : Gen F) : Option (List F × Gen F) :=
  let v_max := get_trunc_value bits_output
  forLoop size (add_noise_affine_body m u A B truncate v_max) (v, g)

/-- Function `copy_image`: `out[i] = in[i]` for `i < N`. -/
def copy_image (inp out : List F) (N : Nat) : Option (List F) :=
  forLoop N (fun i o => (rd inp i).bind fun x => wr o i x) out

/-- The engine function a channel was handed to. -/
inductive Call where
  | add_noise
  | add_noise_affine
  | copy_image
  deriving DecidableEq, Repr

/-- The body of the channel loop of the uniform branch of `algorithm`, on one
channel: `if (sigma > 0) add_noise(...) else copy_image(...)`.  The result
holds the output channel, the generator, and which function ran. -/
def dispatch_uniform (m : Libm F) (inp out : List F) (sigma : F) (truncate : Bool)
    (N : Nat) (bits_output : Int) (g : Gen F) : Option (List F × Gen F × Call) :=
  if Arith.lt (Arith.ofInt 0) sigma then
    (add_noise m inp out sigma truncate N bits_output g).map
      fun r => (r.1, r.2, Call.add_noise)
  else
    (copy_image inp out N).map fun o => (o, g, Call.copy_image)

/-- The body of the channel loop of the affine branch of `algorithm`, on one
channel: `if (A > 0 || B > 0) add_noise_affine(...) else copy_image(...)`. -/
def dispatch_affine (m : Libm F) (inp out : List F) (A B : F) (truncate : Bool)
    (N : Nat) (bits_output : Int) (g : Gen F) : Option (List F × Gen F × Call) :=
  if Arith.lt (Arith.ofInt 0) A || Arith.lt (Arith.ofInt 0) B then
    (add_noise_affine m inp out A B truncate N bits_output g).map
      fun r => (r.1, r.2, Call.add_noise_affine)
  else
    (copy_image inp out N).map fun o => (o, g, Call.copy_image)

/-- Modelled from the spec: what `parsecmdline` leaves in the option records
when it accepts the command line.  `g`, `A`, `B` hold the number given with
the option (`atof` of its value) when the option is present; `b` is
`atoi(ob.value)` and `t` is `ot.flag`.  The seed option only selects the
stream of the generator. -/
structure Options (K : Type) where
  g : Option K
  A : Option K
  B : Option K
  b : Int
  t : Bool

/-- The state of the channel loops of `algorithm`: the output image, the
generator, and the engine functions called so far. -/
structure Run (K : Type) where
  output : List (List K)
  gen : Gen K
  calls : List Call

/-- One iteration of the channel loop of the uniform branch. -/
def uniform_channel (m : Libm F) (input : CImage F) (sigma : F) (truncate : Bool)
    (N : Nat) (bits_output : Int) (ch : Nat) (s : Run F) : Option (Run F) :=
  (rd input.channels ch).bind fun inp =>
  (rd s.output ch).bind fun out =>
  (dispatch_uniform m inp out sigma truncate N bits_output s.gen).bind fun r =>
  (wr s.output ch r.1).bind fun o => some ⟨o, r.2.1, s.calls ++ [r.2.2]⟩

/-- One iteration of the channel loop of the affine branch. -/
def affine_channel (m : Libm F) (input : CImage F) (A B : F) (truncate : Bool)
    (N : Nat) (bits_output : Int) (ch : Nat) (s : Run F) : Option (Run F) :=
  (rd input.channels ch).bind fun inp =>
  (rd s.output ch).bind fun out =>
  (dispatch_affine m inp out A B truncate N bits_output s.gen).bind fun r =>
  (wr s.output ch r.1).bind fun o => some ⟨o, r.2.1, s.calls ++ [r.2.2]⟩

/-- Function `algorithm`, from the return of `parsecmdline` (`none` when it
rejects the command line) to the output image handed to `save`.  An
`exit(-1)` is `Except.error (-1)`; a run that reaches the channel loops is
`Except.ok`, of `none` if a buffer access faults.  The parameters are
`float sigma = atof(og.value)`, and likewise `A` and `B`. -/
def algorithm [Zero F] (m : Libm F) (cmd : Option (Options F)) (input : CImage F)
    (gen : Gen F) : Except Int (Option (Run F)) :=
  match cmd with
  | none => Except.error (-1)
  | some o =>
    let uniform := o.g.isSome
    let affine := o.A.isSome && o.B.isSome
    if !(uniform || affine) then Except.error (-1)
    else if uniform && affine then Except.error (-1)
    else
      let truncate := o.t
      let bits_output := o.b
      let output : CImage F := CImage.create input.width input.height
        input.bits_per_channel input.channels.length
      let N := input.width * input.height
      if uniform then
        let sigma : F := Arith.toFloat (o.g.getD 0)
        Except.ok (forLoop input.channels.length
          (uniform_channel m input sigma truncate N bits_output) ⟨output.channels, gen, []⟩)
      else
        let A : F := Arith.toFloat (o.A.getD 0)
        let B : F := Arith.toFloat (o.B.getD 0)
        Except.ok (forLoop input.channels.length
          (affine_channel m input A B truncate N bits_output) ⟨output.channels, gen, []⟩)

/-- The value the truncation block of `add_noise` and `add_noise_affine`
leaves in `v[i]`, as a function of the value `x` written to it first. -/
def truncated (truncate : Bool) (v_max : Int) (x : F) : F :=
  if truncate then
    if Arith.lt x (Arith.ofInt 0) then Arith.ofInt 0
    else if Arith.lt (Arith.ofInt v_max) x then Arith.ofInt v_max else x
  else x

/-- The `double` `z = std*sqrt(-2.0*log(a))*cos(2.0*M_PI*b)` of both loops. -/
def deviate (m : Libm F) (std a b : F) : F :=
  Arith.dmul (Arith.dmul std (m.sqrt (Arith.dmul (Arith.ofInt (-2)) (m.log a))))
    (m.cos (Arith.dmul (Arith.dmul (Arith.ofInt 2) m.pi) b))

end fnoise

namespace subscale

variable {F : Type} [Arith F]

/-- Function `get_block`: copies the `w`-by-`w` block of `inp` whose corner is
`(x, y)` into `block`. -/
def get_block (block inp : List F) (x y Nx w : Nat) : Option (List F) :=
  forLoop w (fun j b =>
    forLoop w (fun i b2 =>
      (rd inp (Nx * (y + j) + (x + i))).bind fun p => wr b2 (w * j + i) p) b) block

/-- Function `mean_block`: the `float` sum of the `w*w` samples of `block`,
accumulated from `0.0` row after row, divided by `w*w`. -/
def mean_block (block : List F) (w : Nat) : Option F :=
  (forLoop w (fun j s =>
    forLoop w (fun i s2 =>
      (rd block (w * j + i)).bind fun p => some (Arith.fadd s2 p)) s) (Arith.ofInt 0)).map
    fun sum => Arith.fdiv sum (Arith.ofInt ((w * w : Nat) : Int))

/-- The sum that `mean_block` accumulates for the block `(ox, oy)` of a
channel `inp` of width `Nx`: the samples `inp[Nx*(oy*w + j) + (ox*w + i)]` are
added to `0.0` one after the other, `j` by `j` and, for each `j`, `i` by `i`
(an index outside the channel counts as `d`). -/
def block_sum (inp : List F) (d : F) (Nx w ox oy : Nat) : F :=
  (List.range w).foldl (fun s j =>
    (List.range w).foldl (fun s2 i =>
      Arith.fadd s2 (inp.getD (Nx * (oy * w + j) + (ox * w + i)) d)) s) (Arith.ofInt 0)

/-- The body of the `ox` loop of `algorithm`, on the block buffer and the
output channel. -/
def pixel (inp : List F) (Nx w oNx oy ox : Nat) (s : List F × List F) :
    Option (List F × List F) :=
  (get_block s.1 inp (ox * w) (oy * w) Nx w).bind fun blk =>
  (mean_block blk w).bind fun block_mean =>
  (wr s.2 (oNx * oy + ox) block_mean).bind fun o => some (blk, o)

/-- The `oy` and `ox` loops of `algorithm` on one channel. -/
def channel (inp : List F) (Nx w oNx oNy : Nat) (s : List F × List F) :
    Option (List F × List F) :=
  forLoop oNy (fun oy s1 => forLoop oNx (fun ox s2 => pixel inp Nx w oNx oy ox s2) s1) s

/-- Function `algorithm`, from the block side `w = atoi(os.value)` and the
loaded image to the image handed to `save`.  The integer division by `w = 0`
is a fault. -/
def algorithm [Zero F] (w : Nat) (input : CImage F) : Option (CImage F) :=
  if w = 0 then none
  else
    let bits := input.bits_per_channel
    let num_channels := input.channels.length
    let Nx := input.width
    let Ny := input.height
    let oNx := Nx / w
    let oNy := Ny / w
    let output : CImage F := CImage.create oNx oNy bits num_channels
    let block : List F := List.replicate (w * w) 0
    (forLoop num_channels (fun ch s =>
      (rd input.channels ch).bind fun inp =>
      (rd s.2 ch).bind fun out =>
      (channel inp Nx w oNx oNy (s.1, out)).bind fun r =>
      (wr s.2 ch r.2).bind fun o => some (r.1, o)) (block, output.channels)).map
      fun s => ⟨oNx, oNy, bits, s.2⟩

end subscale

/-! ## Loops and buffers -/

theorem forLoop_succ {σ : Type} (n : Nat) (body : Nat → σ → Option σ) (s : σ) :
    forLoop (n + 1) body s = (forLoop n body s).bind (body n) := rfl

/-- The invariant rule of `forLoop`: an invariant that holds at entry and that
every iteration re-establishes, without a fault, holds at exit. -/
theorem forLoop_inv {σ : Type} (P : Nat → σ → Prop) (n : Nat) (body : Nat → σ → Option σ)
    (s : σ) (h0 : P 0 s)
    (hstep : ∀ i, i < n → ∀ t, P i t → ∃ t2, body i t = some t2 ∧ P (i + 1) t2) :
    ∃ t, forLoop n body s = some t ∧ P n t := by
  induction n with
  | zero => exact ⟨s, rfl, h0⟩
  | succ k ih =>
    obtain ⟨t, ht, hP⟩ := ih (fun i hi => hstep i (Nat.lt_succ_of_lt hi))
    obtain ⟨t2, ht2, hP2⟩ := hstep k (Nat.lt_succ_self k) t hP
    exact ⟨t2, by rw [forLoop_succ, ht]; exact ht2, hP2⟩

theorem rd_of_lt {K : Type} (buf : List K) (i : Nat) (h : i < buf.length) :
    rd buf i = some buf[i] := by
  simp [rd, List.getElem?_eq_getElem h]

theorem wr_of_lt {K : Type} (buf : List K) (i : Nat) (x : K) (h : i < buf.length) :
    wr buf i x = some (buf.set i x) := by
  simp [wr, h]

/-! ## The exact arithmetic -/

section ExactArith

variable {K : Type} [LinearOrderedField K]

theorem exact_fadd (x y : K) : Arith.fadd x y = x + y := rfl

theorem exact_fmul (x y : K) : Arith.fmul x y = x * y := rfl

theorem exact_dmul (x y : K) : Arith.dmul x y = x * y := rfl

theorem exact_toFloat (x : K) : Arith.toFloat x = x := rfl

theorem exact_ofInt (n : Int) : (Arith.ofInt n : K) = (n : K) := rfl

theorem exact_lt (x y : K) : Arith.lt x y = decide (x < y) := rfl

end ExactArith

namespace fnoise

variable {F : Type} [Arith F]

/-- One iteration of `add_noise` inside the buffers: two draws, and the
truncated noisy sample written at `i`. -/
theorem add_noise_body_eq (m : Libm F) (u : List F) (std : F) (truncate : Bool)
    (v_max : Int) (i : Nat) (v : List F) (g : Gen F) (ui : F)
    (hu : u[i]? = some ui) (hv : i < v.length) :
    add_noise_body m u std truncate v_max i (v, g) =
      some (v.set i (truncated truncate v_max
        (Arith.fadd ui (Arith.toFloat (deviate m std (g.draws g.pos) (g.draws (g.pos + 1)))))),
        ⟨g.draws, g.pos + 2⟩) := by
  cases truncate <;>
    simp only [add_noise_body, drand48, rd, hu, Option.some_bind, wr, hv, if_true,
      truncated, deviate, List.length_set, List.getElem?_set_self hv, Bool.false_eq_true,
      if_false, List.set_set]
  · split_ifs <;> simp [List.set_set]

/-- One iteration of `add_noise_affine` inside the buffers. -/
theorem add_noise_affine_body_eq (m : Libm F) (u : List F) (A B : F) (truncate : Bool)
    (v_max : Int) (i : Nat) (v : List F) (g : Gen F) (ui : F)
    (hu : u[i]? = some ui) (hv : i < v.length) :
    add_noise_affine_body m u A B truncate v_max i (v, g) =
      some (v.set i (truncated truncate v_max
        (Arith.fadd ui (Arith.toFloat
          (deviate m (affine_std m A B ui) (g.draws g.pos) (g.draws (g.pos + 1)))))),
        ⟨g.draws, g.pos + 2⟩) := by
  cases truncate <;>
    simp only [add_noise_affine_body, drand48, rd, hu, Option.some_bind, wr, hv, if_true,
      truncated, deviate, List.length_set, List.getElem?_set_self hv, Bool.false_eq_true,
      if_false, List.set_set]
  · split_ifs <;> simp [List.set_set]

/-- A loop whose iteration `i` draws twice and writes `f ui a b` at `v[i]`,
run `n` times inside the buffers: it ends, `2 * n` draws further, with the
first `n` samples written from consecutive pairs of draws and the others
untouched. -/
theorem noise_loop (body : Nat → List F × Gen F → Option (List F × Gen F))
    (f : F → F → F → F) (u v0 : List F) (g0 : Gen F) (n : Nat)
    (hu : n ≤ u.length) (hv : n ≤ v0.length)
    (hbody : ∀ i v g ui, u[i]? = some ui → i < v.length →
      body i (v, g) = some (v.set i (f ui (g.draws g.pos) (g.draws (g.pos + 1))),
        ⟨g.draws, g.pos + 2⟩)) :
    ∃ v, forLoop n body (v0, g0) = some (v, ⟨g0.draws, g0.pos + 2 * n⟩) ∧
      v.length = v0.length ∧
      (∀ i ui, i < n → u[i]? = some ui →
        v[i]? = some (f ui (g0.draws (g0.pos + 2 * i)) (g0.draws (g0.pos + 2 * i + 1)))) ∧
      (∀ i, n ≤ i → v[i]? = v0[i]?) := by
  induction n with
  | zero => exact ⟨v0, rfl, rfl, fun i ui hi => absurd hi (Nat.not_lt_zero i), fun i _ => rfl⟩
  | succ k ih =>
    obtain ⟨v, hrun, hlen, hlow, hhigh⟩ := ih (Nat.le_of_succ_le hu) (Nat.le_of_succ_le hv)
    have hku : k < u.length := hu
    have hkv : k < v.length := by rw [hlen]; exact hv
    have hk : u[k]? = some u[k] := by simp [List.getElem?_eq_getElem hku]
    refine ⟨v.set k (f u[k] (g0.draws (g0.pos + 2 * k))
      (g0.draws (g0.pos + 2 * k + 1))), ?_, ?_, ?_, ?_⟩
    · rw [forLoop_succ, hrun, Option.some_bind, hbody k v _ _ hk hkv]
      simp [Nat.mul_succ, Nat.add_assoc]
    · simp [hlen]
    · intro i ui hi hui
      rcases Nat.lt_succ_iff_lt_or_eq.mp hi with hlt | heq
      · rw [List.getElem?_set_ne (Nat.ne_of_gt hlt)]
        exact hlow i ui hlt hui
      · subst heq
        rw [hk] at hui
        rw [List.getElem?_set_self hkv, ← Option.some.inj hui]
    · intro i hi
      rw [List.getElem?_set_ne (by omega)]
      exact hhigh i (by omega)

/-- Function `copy_image` on buffers of `N` samples returns the input. -/
theorem copy_image_eq (inp out : List F) (N : Nat) (hi : inp.length = N)
    (ho : out.length = N) : copy_image inp out N = some inp := by
  obtain ⟨o, hrun, hlen, hP⟩ := forLoop_inv
    (fun i (o : List F) => o.length = N ∧ ∀ k, k < i → o[k]? = inp[k]?) N
    (fun i o => (rd inp i).bind fun x => wr o i x) out ⟨ho, fun k hk => absurd hk (Nat.not_lt_zero k)⟩
    (by
      intro i hiN t ht
      have h1 : i < inp.length := by omega
      have h2 : i < t.length := by omega
      refine ⟨t.set i inp[i], ?_, ?_, ?_⟩
      · show (rd inp i).bind (fun x => wr t i x) = _
        rw [rd_of_lt inp i h1, Option.some_bind, wr_of_lt t i _ h2]
      · simp [ht.1]
      · intro k hk
        rcases Nat.lt_succ_iff_lt_or_eq.mp hk with hlt | heq
        · rw [List.getElem?_set_ne (Nat.ne_of_gt hlt)]
          exact ht.2 k hlt
        · subst heq
          rw [List.getElem?_set_self h2]
          simp [List.getElem?_eq_getElem h1])
  have : o = inp := by
    apply List.ext_getElem?
    intro k
    by_cases hk : k < N
    · exact hP k hk
    · rw [List.getElem?_eq_none (by omega), List.getElem?_eq_none (by omega)]
  rw [copy_image, hrun, this]

/-- Function `add_noise` inside the buffers: the final output and generator. -/
theorem add_noise_spec (m : Libm F) (u v : List F) (std : F) (truncate : Bool)
    (size : Nat) (bits_output : Int) (g : Gen F)
    (hu : size ≤ u.length) (hv : size ≤ v.length) :
    ∃ v2, add_noise m u v std truncate size bits_output g =
        some (v2, ⟨g.draws, g.pos + 2 * size⟩) ∧
      v2.length = v.length ∧
      (∀ i ui, i < size → u[i]? = some ui →
        v2[i]? = some (truncated truncate (get_trunc_value bits_output)
          (Arith.fadd ui (Arith.toFloat
            (deviate m std (g.draws (g.pos + 2 * i)) (g.draws (g.pos + 2 * i + 1))))))) ∧
      (∀ i, size ≤ i → v2[i]? = v[i]?) :=
  noise_loop (add_noise_body m u std truncate (get_trunc_value bits_output))
    (fun ui a b => truncated truncate (get_trunc_value bits_output)
      (Arith.fadd ui (Arith.toFloat (deviate m std a b))))
    u v g size hu hv
    (fun i v g ui h1 h2 => add_noise_body_eq m u std truncate _ i v g ui h1 h2)

/-- Function `add_noise_affine` inside the buffers: the final output and
generator. -/
theorem add_noise_affine_spec (m : Libm F) (u v : List F) (A B : F) (truncate : Bool)
    (size : Nat) (bits_output : Int) (g : Gen F)
    (hu : size ≤ u.length) (hv : size ≤ v.length) :
    ∃ v2, add_noise_affine m u v A B truncate size bits_output g =
        some (v2, ⟨g.draws, g.pos + 2 * size⟩) ∧
      v2.length = v.length ∧
      (∀ i ui, i < size → u[i]? = some ui →
        v2[i]? = some (truncated truncate (get_trunc_value bits_output)
          (Arith.fadd ui (Arith.toFloat
            (deviate m (affine_std m A B ui) (g.draws (g.pos + 2 * i))
              (g.draws (g.pos + 2 * i + 1))))))) ∧
      (∀ i, size ≤ i → v2[i]? = v[i]?) :=
  noise_loop (add_noise_affine_body m u A B truncate (get_trunc_value bits_output))
    (fun ui a b => truncated truncate (get_trunc_value bits_output)
      (Arith.fadd ui (Arith.toFloat (deviate m (affine_std m A B ui) a b))))
    u v g size hu hv
    (fun i v g ui h1 h2 => add_noise_affine_body_eq m u A B truncate _ i v g ui h1 h2)

end fnoise

/-! ## Rounding -/

theorem fp_lt_nan_left (y : Fp) : Arith.lt Fp.nan y = false := id rfl

theorem fp_lt_nan_right (x : Fp) : Arith.lt x Fp.nan = false := by
  cases x <;> rfl

theorem fp_dmul_nan_right (x : Fp) : Arith.dmul x Fp.nan = Fp.nan := by
  cases x <;> rfl

namespace fnoise

end fnoise

namespace fnoise

variable {K : Type} [LinearOrderedField K]

/-! ## The noise engine -/

/-- C3, per-sample noise formula.  Without truncation, on buffers that hold
`size` samples and with `d k` the `k`-th draw after the call starts,
`add_noise` writes `u[i] + std * sqrt(-2 ln (d (2i))) * cos(2 pi (d (2i+1)))` at
every `i < size`, and `add_noise_affine` writes
`u[i] + sqrt(A + B*u[i]) * sqrt(-2 ln (d (2i))) * cos(2 pi (d (2i+1)))`. -/
theorem noise_formula (m : Libm K) (u v : List K) (std A B : K) (size : Nat)
    (bits_output : Int) (g : Gen K) (hu : size ≤ u.length) (hv : size ≤ v.length) :
    (∃ v2 g2, add_noise m u v std false size bits_output g = some (v2, g2) ∧
      ∀ i ui, i < size → u[i]? = some ui →
        v2[i]? = some (ui + std * m.sqrt (-2 * m.log (g.draws (g.pos + 2 * i)))
          * m.cos (2 * m.pi * g.draws (g.pos + (2 * i + 1))))) ∧
    (∃ v2 g2, add_noise_affine m u v A B false size bits_output g = some (v2, g2) ∧
      ∀ i ui, i < size → u[i]? = some ui →
        v2[i]? = some (ui + m.sqrt (A + B * ui)
          * m.sqrt (-2 * m.log (g.draws (g.pos + 2 * i)))
          * m.cos (2 * m.pi * g.draws (g.pos + (2 * i + 1))))) := by
  obtain ⟨v2, h2, -, hval, -⟩ := add_noise_spec m u v std false size bits_output g hu hv
  obtain ⟨v3, h3, -, hval3, -⟩ :=
    add_noise_affine_spec m u v A B false size bits_output g hu hv
  refine ⟨⟨v2, _, h2, ?_⟩, ⟨v3, _, h3, ?_⟩⟩
  · intro i ui hi hui
    rw [hval i ui hi hui]
    simp [truncated, deviate, Nat.add_assoc, exact_fadd, exact_dmul, exact_toFloat,
      exact_ofInt]
  · intro i ui hi hui
    rw [hval3 i ui hi hui]
    simp [truncated, deviate, affine_std, Nat.add_assoc, exact_fadd, exact_fmul, exact_dmul,
      exact_toFloat, exact_ofInt]

/-- The formula of `add_noise` on a two-sample buffer with the draws
`1/2, 1/4, 1/8, 1/16`, and stand-ins for the library functions: the second
sample is `20 + 2 * (-2 * (1/8)) * (2 * 3 * (1/16))`. -/
theorem noise_formula_witness :
    ∃ v2 g2, add_noise (⟨id, id, id, 3⟩ : Libm ℚ) [10, 20] [0, 0] 2 false 2 8
        ⟨fun k => 1 / 2 ^ (k + 1), 0⟩ = some (v2, g2) ∧
      v2[1]? = some ((20 : ℚ) + 2 * (-2 * (1 / 8)) * (2 * 3 * (1 / 16))) := by
  obtain ⟨v2, g2, h, hval⟩ := (noise_formula (⟨id, id, id, 3⟩ : Libm ℚ) [10, 20] [0, 0]
    2 0 0 2 8 ⟨fun k => 1 / 2 ^ (k + 1), 0⟩ (by decide) (by decide)).1
  refine ⟨v2, g2, h, ?_⟩
  rw [hval 1 20 (by decide) rfl]
  norm_num

/-- C4, draw count.  On buffers that hold `size` samples, whatever the
samples, the truncation flag, the bit depth and the parameters, `add_noise`
and `add_noise_affine` end, leave the generator exactly `2 * size` draws
further on the same stream, keep the length of the output buffer, and set
each of its `size` first positions to a value that does not depend on what
the buffer held before. -/
theorem draw_count (m : Libm K) (u v : List K) (std A B : K) (truncate : Bool)
    (size : Nat) (bits_output : Int) (g : Gen K)
    (hu : size ≤ u.length) (hv : size ≤ v.length) :
    (∃ v2 g2, add_noise m u v std truncate size bits_output g = some (v2, g2) ∧
      g2.pos = g.pos + 2 * size ∧ g2.draws = g.draws ∧ v2.length = v.length ∧
      ∀ i, i < size → ∃ x, v2[i]? = some x ∧
        ∀ w : List K, size ≤ w.length →
          ∃ w2, add_noise m u w std truncate size bits_output g = some (w2, g2) ∧
            w2[i]? = some x) ∧
    (∃ v2 g2, add_noise_affine m u v A B truncate size bits_output g = some (v2, g2) ∧
      g2.pos = g.pos + 2 * size ∧ g2.draws = g.draws ∧ v2.length = v.length ∧
      ∀ i, i < size → ∃ x, v2[i]? = some x ∧
        ∀ w : List K, size ≤ w.length →
          ∃ w2, add_noise_affine m u w A B truncate size bits_output g = some (w2, g2) ∧
            w2[i]? = some x) := by
  obtain ⟨v2, h2, hlen, hval, -⟩ := add_noise_spec m u v std truncate size bits_output g hu hv
  obtain ⟨v3, h3, hlen3, hval3, -⟩ :=
    add_noise_affine_spec m u v A B truncate size bits_output g hu hv
  refine ⟨⟨v2, _, h2, rfl, rfl, hlen, ?_⟩, ⟨v3, _, h3, rfl, rfl, hlen3, ?_⟩⟩
  · intro i hi
    have hui : u[i]? = some (u.get ⟨i, by omega⟩) := by
      simp [List.getElem?_eq_getElem (show i < u.length by omega)]
    refine ⟨_, hval i _ hi hui, ?_⟩
    intro w hw
    obtain ⟨w2, hw2, -, hvalw, -⟩ := add_noise_spec m u w std truncate size bits_output g hu hw
    exact ⟨w2, hw2, hvalw i _ hi hui⟩
  · intro i hi
    have hui : u[i]? = some (u.get ⟨i, by omega⟩) := by
      simp [List.getElem?_eq_getElem (show i < u.length by omega)]
    refine ⟨_, hval3 i _ hi hui, ?_⟩
    intro w hw
    obtain ⟨w2, hw2, -, hvalw, -⟩ :=
      add_noise_affine_spec m u w A B truncate size bits_output g hu hw
    exact ⟨w2, hw2, hvalw i _ hi hui⟩

/-- The draw count of `add_noise` on a three-sample buffer, with truncation:
six draws. -/
theorem draw_count_witness :
    ∃ v2 g2, add_noise (⟨id, id, id, 3⟩ : Libm ℚ) [10, 300, -5] [0, 0, 0] 2 true 3 8
        ⟨fun k => 1 / 2 ^ (k + 1), 0⟩ = some (v2, g2) ∧ g2.pos = 6 ∧ v2.length = 3 := by
  obtain ⟨v2, g2, h, hpos, -, hlen, -⟩ := (draw_count (⟨id, id, id, 3⟩ : Libm ℚ)
    [10, 300, -5] [0, 0, 0] 2 0 0 true 3 8 ⟨fun k => 1 / 2 ^ (k + 1), 0⟩
    (by decide) (by decide)).1
  exact ⟨v2, g2, h, hpos, hlen⟩

/-! ## The per-channel dispatch -/

/-- C2, degenerate no-op.  On buffers of `N` samples, whatever the truncation
flag and the bit depth, the dispatch with the uniform model and `sigma = 0`,
and the dispatch with the affine model and `A = B = 0`, return the input as
output, the generator as it was, and ran `copy_image`. -/
theorem degenerate_noop (m : Libm K) (inp out : List K) (truncate : Bool) (N : Nat)
    (bits_output : Int) (g : Gen K) (hi : inp.length = N) (ho : out.length = N) :
    dispatch_uniform m inp out 0 truncate N bits_output g =
      some (inp, g, Call.copy_image) ∧
    dispatch_affine m inp out 0 0 truncate N bits_output g =
      some (inp, g, Call.copy_image) := by
  constructor
  · simp [dispatch_uniform, copy_image_eq inp out N hi ho, exact_lt, exact_ofInt]
  · simp [dispatch_affine, copy_image_eq inp out N hi ho, exact_lt, exact_ofInt]

/-- The no-op on `[10, 10, 10, 10]` with the uniform model, `sigma = 0` and no
truncation: the output is `[10, 10, 10, 10]` and no draw is consumed. -/
theorem degenerate_noop_witness :
    dispatch_uniform (⟨id, id, id, 3⟩ : Libm ℚ) [10, 10, 10, 10] [0, 0, 0, 0] 0 false 4 8
      ⟨fun k => 1 / 2 ^ (k + 1), 0⟩ =
      some ([10, 10, 10, 10], ⟨fun k => 1 / 2 ^ (k + 1), 0⟩, Call.copy_image) :=
  (degenerate_noop (⟨id, id, id, 3⟩ : Libm ℚ) [10, 10, 10, 10] [0, 0, 0, 0] false 4 8
    ⟨fun k => 1 / 2 ^ (k + 1), 0⟩ rfl rfl).1

end fnoise

namespace fnoise

variable {F : Type} [Arith F]

/-! ## Model selection and the channel loops -/

/-- The generator `n` calls of a noise function later, each of `k` draws. -/
theorem iterate_draws (k n : Nat) (g : Gen F) :
    (fun g : Gen F => (⟨g.draws, g.pos + k⟩ : Gen F))^[n] g = ⟨g.draws, g.pos + k * n⟩ := by
  induction n with
  | zero => rfl
  | succ j ih =>
    rw [Function.iterate_succ_apply', ih]
    simp [Nat.mul_succ, Nat.add_assoc]

/-- The uniform dispatch on buffers of `N` samples ends with an output of `N`
samples: the one of `add_noise`, `2 * N` draws further, if `sigma > 0`, and
the input, with the generator as it was, otherwise. -/
theorem dispatch_uniform_runs (m : Libm F) (inp out : List F) (sigma : F) (truncate : Bool)
    (N : Nat) (bits_output : Int) (g : Gen F) (hi : inp.length = N) (ho : out.length = N) :
    ∃ v, dispatch_uniform m inp out sigma truncate N bits_output g =
        some (v, (if Arith.lt (Arith.ofInt 0) sigma = true
            then (fun g : Gen F => (⟨g.draws, g.pos + 2 * N⟩ : Gen F)) else id) g,
          if Arith.lt (Arith.ofInt 0) sigma = true then Call.add_noise else Call.copy_image) ∧
      v.length = N := by
  by_cases hs : Arith.lt (Arith.ofInt 0) sigma = true
  · obtain ⟨v2, h2, hlen, -, -⟩ := add_noise_spec m inp out sigma truncate N bits_output g
      (le_of_eq hi.symm) (le_of_eq ho.symm)
    exact ⟨v2, by simp [dispatch_uniform, hs, h2], by rw [hlen, ho]⟩
  · exact ⟨inp, by simp [dispatch_uniform, hs, copy_image_eq inp out N hi ho], hi⟩

/-- The affine dispatch on buffers of `N` samples ends with an output of `N`
samples: the one of `add_noise_affine`, `2 * N` draws further, if `A > 0` or
`B > 0`, and the input, with the generator as it was, otherwise. -/
theorem dispatch_affine_runs (m : Libm F) (inp out : List F) (A B : F) (truncate : Bool)
    (N : Nat) (bits_output : Int) (g : Gen F) (hi : inp.length = N) (ho : out.length = N) :
    ∃ v, dispatch_affine m inp out A B truncate N bits_output g =
        some (v, (if (Arith.lt (Arith.ofInt 0) A || Arith.lt (Arith.ofInt 0) B) = true
            then (fun g : Gen F => (⟨g.draws, g.pos + 2 * N⟩ : Gen F)) else id) g,
          if (Arith.lt (Arith.ofInt 0) A || Arith.lt (Arith.ofInt 0) B) = true
            then Call.add_noise_affine else Call.copy_image) ∧
      v.length = N := by
  by_cases hs : (Arith.lt (Arith.ofInt 0) A || Arith.lt (Arith.ofInt 0) B) = true
  · obtain ⟨v2, h2, hlen, -, -⟩ := add_noise_affine_spec m inp out A B truncate N bits_output g
      (le_of_eq hi.symm) (le_of_eq ho.symm)
    exact ⟨v2, by simp [dispatch_affine, hs, h2], by rw [hlen, ho]⟩
  · exact ⟨inp, by simp [dispatch_affine, hs, copy_image_eq inp out N hi ho], hi⟩

/-- A channel loop whose body hands each channel to a dispatch `D` that ends,
runs the function `call` and advances the generator by `next`: on a
well-formed image the loop ends; it ran `call` once per channel, and the
output channel `ch` is what `D` returns on the input channel `ch`, a zeroed
buffer and the generator advanced `ch` times. -/
theorem channel_loop [Zero F]
    (D : List F → List F → Gen F → Option (List F × Gen F × Call))
    (body : Nat → Run F → Option (Run F)) (input : CImage F) (gen : Gen F) (call : Call)
    (next : Gen F → Gen F) (hwf : input.wf)
    (hbody : ∀ ch s, body ch s =
      (rd input.channels ch).bind fun inp =>
      (rd s.output ch).bind fun out =>
      (D inp out s.gen).bind fun r =>
      (wr s.output ch r.1).bind fun o => some ⟨o, r.2.1, s.calls ++ [r.2.2]⟩)
    (hD : ∀ inp out g, inp.length = input.width * input.height →
      out.length = input.width * input.height →
      ∃ v, D inp out g = some (v, next g, call) ∧ v.length = input.width * input.height) :
    ∃ r, forLoop input.channels.length body
        ⟨(CImage.create input.width input.height input.bits_per_channel
          input.channels.length : CImage F).channels, gen, []⟩ = some r ∧
      r.output.length = input.channels.length ∧
      r.calls = List.replicate input.channels.length call ∧
      r.gen = next^[input.channels.length] gen ∧
      ∀ (ch : Nat) (inp : List F), input.channels[ch]? = some inp →
        ∃ out, r.output[ch]? = some out ∧
          D inp (List.replicate (input.width * input.height) 0) (next^[ch] gen) =
            some (out, next^[ch + 1] gen, call) := by
  obtain ⟨r, hr, hP⟩ := forLoop_inv
    (fun i (s : Run F) => s.output.length = input.channels.length ∧
      (∀ c ∈ s.output, c.length = input.width * input.height) ∧
      s.calls = List.replicate i call ∧ s.gen = next^[i] gen ∧
      (∀ (ch : Nat) (inp : List F), ch < i → input.channels[ch]? = some inp →
        ∃ out, s.output[ch]? = some out ∧
          D inp (List.replicate (input.width * input.height) 0) (next^[ch] gen) =
            some (out, next^[ch + 1] gen, call)) ∧
      ∀ ch, i ≤ ch → ch < input.channels.length →
        s.output[ch]? = some (List.replicate (input.width * input.height) 0))
    input.channels.length body
    ⟨(CImage.create input.width input.height input.bits_per_channel
      input.channels.length : CImage F).channels, gen, []⟩
    ⟨by simp [CImage.create], by
      intro c hc
      simp only [CImage.create, List.mem_replicate] at hc
      rw [hc.2, List.length_replicate], rfl, rfl,
      fun ch inp h => absurd h (Nat.not_lt_zero ch), by
      intro ch _ hch
      simp [CImage.create, hch]⟩
    (by
      intro i hi t ⟨hlen, hall, hcalls, hgen, hdone, hrest⟩
      have hit : i < t.output.length := by omega
      have hinp := hwf _ (List.getElem_mem hi)
      have hzero : t.output[i] = List.replicate (input.width * input.height) 0 := by
        have h := hrest i (le_refl i) hi
        rw [List.getElem?_eq_getElem hit] at h
        exact Option.some.inj h
      have hout := hall _ (List.getElem_mem hit)
      obtain ⟨v, hd, hv⟩ := hD _ _ t.gen hinp hout
      refine ⟨⟨t.output.set i v, next t.gen, t.calls ++ [call]⟩, ?_, ?_, ?_, ?_, ?_, ?_, ?_⟩
      · rw [hbody, rd_of_lt _ i hi, Option.some_bind, rd_of_lt _ i hit, Option.some_bind]
        rw [hd, Option.some_bind, wr_of_lt _ i _ hit, Option.some_bind]
      · simp [hlen]
      · intro c hc
        rcases List.mem_or_eq_of_mem_set hc with h | h
        · exact hall c h
        · rw [h, hv]
      · rw [hcalls, List.replicate_succ']
      · show next t.gen = next^[i + 1] gen
        rw [Function.iterate_succ_apply', hgen]
      · intro ch inp hch hci
        rcases Nat.lt_succ_iff_lt_or_eq.mp hch with h | h
        · obtain ⟨out, ho, hDo⟩ := hdone ch inp h hci
          exact ⟨out, by
            show (t.output.set i v)[ch]? = some out
            rw [List.getElem?_set_ne (by omega)]; exact ho, hDo⟩
        · subst h
          rw [List.getElem?_eq_getElem hi] at hci
          refine ⟨v, List.getElem?_set_self hit, ?_⟩
          rw [← Option.some.inj hci, Function.iterate_succ_apply', ← hgen, ← hzero]
          exact hd
      · intro ch hch hlt
        show (t.output.set i v)[ch]? = _
        rw [List.getElem?_set_ne (by omega)]
        exact hrest ch (by omega) hlt)
  exact ⟨r, hr, hP.1, hP.2.2.1, hP.2.2.2.1, fun ch inp hci => hP.2.2.2.2.1 ch inp (by
    by_contra hge
    rw [List.getElem?_eq_none (by omega)] at hci
    exact Option.noConfusion hci) hci⟩

/-- The uniform branch of `algorithm` on a well-formed image. -/
theorem algorithm_uniform [Zero F] (m : Libm F) (o : Options F) (input : CImage F)
    (gen : Gen F) (s0 : F) (hg : o.g = some s0)
    (hAB : ¬ (o.A.isSome = true ∧ o.B.isSome = true)) (hwf : input.wf) :
    ∃ r, algorithm m (some o) input gen = Except.ok (some r) ∧
      r.output.length = input.channels.length ∧
      r.calls = List.replicate input.channels.length
        (if Arith.lt (Arith.ofInt 0) (Arith.toFloat s0) = true
          then Call.add_noise else Call.copy_image) ∧
      r.gen = (if Arith.lt (Arith.ofInt 0) (Arith.toFloat s0) = true
        then (fun g : Gen F => (⟨g.draws, g.pos + 2 * (input.width * input.height)⟩ : Gen F))
        else id)^[input.channels.length] gen ∧
      ∀ (ch : Nat) (inp : List F), input.channels[ch]? = some inp →
        ∃ out, r.output[ch]? = some out ∧
          dispatch_uniform m inp (List.replicate (input.width * input.height) 0)
            (Arith.toFloat s0) o.t (input.width * input.height) o.b
            ((if Arith.lt (Arith.ofInt 0) (Arith.toFloat s0) = true
              then (fun g : Gen F =>
                (⟨g.draws, g.pos + 2 * (input.width * input.height)⟩ : Gen F))
              else id)^[ch] gen) =
            some (out, (if Arith.lt (Arith.ofInt 0) (Arith.toFloat s0) = true
              then (fun g : Gen F =>
                (⟨g.draws, g.pos + 2 * (input.width * input.height)⟩ : Gen F))
              else id)^[ch + 1] gen,
              if Arith.lt (Arith.ofInt 0) (Arith.toFloat s0) = true
                then Call.add_noise else Call.copy_image) := by
  obtain ⟨r, hr, hlen, hcalls, hgen, hch⟩ := channel_loop
    (fun inp out g => dispatch_uniform m inp out (Arith.toFloat s0) o.t
      (input.width * input.height) o.b g)
    (uniform_channel m input (Arith.toFloat s0) o.t (input.width * input.height) o.b) input gen
    (if Arith.lt (Arith.ofInt 0) (Arith.toFloat s0) = true
      then Call.add_noise else Call.copy_image)
    (if Arith.lt (Arith.ofInt 0) (Arith.toFloat s0) = true
      then (fun g : Gen F => (⟨g.draws, g.pos + 2 * (input.width * input.height)⟩ : Gen F))
      else id) hwf (fun _ _ => rfl)
    (fun inp out g hi ho => dispatch_uniform_runs m inp out _ o.t _ o.b g hi ho)
  refine ⟨r, ?_, hlen, hcalls, hgen, hch⟩
  have hAB2 : (o.A.isSome && o.B.isSome) = false := by
    rcases hA : o.A.isSome <;> rcases hB : o.B.isSome <;> simp_all
  simp only [algorithm, hg, hAB2, Option.isSome_some, Option.getD_some, Bool.or_false,
    Bool.not_true, Bool.and_false, Bool.false_eq_true, if_false, if_true]
  rw [hr]

/-- The affine branch of `algorithm` on a well-formed image. -/
theorem algorithm_affine [Zero F] (m : Libm F) (o : Options F) (input : CImage F)
    (gen : Gen F) (A0 B0 : F) (hg : o.g = none) (hA : o.A = some A0) (hB : o.B = some B0)
    (hwf : input.wf) :
    ∃ r, algorithm m (some o) input gen = Except.ok (some r) ∧
      r.output.length = input.channels.length ∧
      r.calls = List.replicate input.channels.length
        (if (Arith.lt (Arith.ofInt 0) (Arith.toFloat A0) ||
            Arith.lt (Arith.ofInt 0) (Arith.toFloat B0)) = true
          then Call.add_noise_affine else Call.copy_image) ∧
      r.gen = (if (Arith.lt (Arith.ofInt 0) (Arith.toFloat A0) ||
            Arith.lt (Arith.ofInt 0) (Arith.toFloat B0)) = true
        then (fun g : Gen F => (⟨g.draws, g.pos + 2 * (input.width * input.height)⟩ : Gen F))
        else id)^[input.channels.length] gen ∧
      ∀ (ch : Nat) (inp : List F), input.channels[ch]? = some inp →
        ∃ out, r.output[ch]? = some out ∧
          dispatch_affine m inp (List.replicate (input.width * input.height) 0)
            (Arith.toFloat A0) (Arith.toFloat B0) o.t (input.width * input.height) o.b
            ((if (Arith.lt (Arith.ofInt 0) (Arith.toFloat A0) ||
                Arith.lt (Arith.ofInt 0) (Arith.toFloat B0)) = true
              then (fun g : Gen F =>
                (⟨g.draws, g.pos + 2 * (input.width * input.height)⟩ : Gen F))
              else id)^[ch] gen) =
            some (out, (if (Arith.lt (Arith.ofInt 0) (Arith.toFloat A0) ||
                Arith.lt (Arith.ofInt 0) (Arith.toFloat B0)) = true
              then (fun g : Gen F =>
                (⟨g.draws, g.pos + 2 * (input.width * input.height)⟩ : Gen F))
              else id)^[ch + 1] gen,
              if (Arith.lt (Arith.ofInt 0) (Arith.toFloat A0) ||
                  Arith.lt (Arith.ofInt 0) (Arith.toFloat B0)) = true
                then Call.add_noise_affine else Call.copy_image) := by
  obtain ⟨r, hr, hlen, hcalls, hgen, hch⟩ := channel_loop
    (fun inp out g => dispatch_affine m inp out (Arith.toFloat A0) (Arith.toFloat B0) o.t
      (input.width * input.height) o.b g)
    (affine_channel m input (Arith.toFloat A0) (Arith.toFloat B0) o.t
      (input.width * input.height) o.b) input gen
    (if (Arith.lt (Arith.ofInt 0) (Arith.toFloat A0) ||
        Arith.lt (Arith.ofInt 0) (Arith.toFloat B0)) = true
      then Call.add_noise_affine else Call.copy_image)
    (if (Arith.lt (Arith.ofInt 0) (Arith.toFloat A0) ||
        Arith.lt (Arith.ofInt 0) (Arith.toFloat B0)) = true
      then (fun g : Gen F => (⟨g.draws, g.pos + 2 * (input.width * input.height)⟩ : Gen F))
      else id) hwf (fun _ _ => rfl)
    (fun inp out g hi ho => dispatch_affine_runs m inp out _ _ o.t _ o.b g hi ho)
  refine ⟨r, ?_, hlen, hcalls, hgen, hch⟩
  simp only [algorithm, hg, hA, hB, Option.isSome_some, Option.isSome_none, Option.getD_some,
    Bool.or_true, Bool.and_true, Bool.not_true, Bool.false_and, Bool.false_eq_true, if_false,
    Bool.or_false, Bool.and_self, Bool.false_or]
  rw [hr]

end fnoise

namespace fnoise

variable {K : Type} [LinearOrderedField K]

/-- The guard `sigma > 0` in the exact arithmetic. -/
theorem exact_guard (x : K) : (Arith.lt (Arith.ofInt 0) (Arith.toFloat x) = true) ↔ x > 0 := by
  simp [exact_lt, exact_ofInt, exact_toFloat]

/-- The guard `A > 0 || B > 0` in the exact arithmetic. -/
theorem exact_guard_or (x y : K) :
    ((Arith.lt (Arith.ofInt 0) (Arith.toFloat x) ||
      Arith.lt (Arith.ofInt 0) (Arith.toFloat y)) = true) ↔ (x > 0 ∨ y > 0) := by
  simp [exact_lt, exact_ofInt, exact_toFloat]

/-- C7, model selection.  With `uniform` the presence of `-g` and `affine`
the presence of both `-A` and `-B`, on an accepted command line `algorithm`
exits with a non-zero status, before any channel is processed, if and only
if both models are selected or neither is.  Otherwise, on a well-formed
image of `N = width * height` samples per channel, it ends having run the
path of the selected model, and of no other, on every channel in turn.
When `uniform`: one call per channel, none of `add_noise_affine`; if
`sigma > 0` the output channel `ch` is the buffer that `add_noise` returns
on the input channel `ch` with the generator `2 * N * ch` draws after the
start, and the generator ends `2 * N` draws further per channel; otherwise
every output channel is the input channel and no draw is consumed.  When
`affine`: the same with `add_noise_affine`, the guard `A > 0` or `B > 0`, and
no call of `add_noise`. -/
theorem model_selection (m : Libm K) (o : Options K) (input : CImage K) (gen : Gen K) :
    ((∃ c : Int, c ≠ 0 ∧ algorithm m (some o) input gen = Except.error c) ↔
      ((o.g.isSome = true ∧ (o.A.isSome = true ∧ o.B.isSome = true)) ∨
       (o.g.isSome = false ∧ ¬ (o.A.isSome = true ∧ o.B.isSome = true)))) ∧
    (input.wf → ∀ sigma, o.g = some sigma → ¬ (o.A.isSome = true ∧ o.B.isSome = true) →
      ∃ r, algorithm m (some o) input gen = Except.ok (some r) ∧
        r.calls = List.replicate input.channels.length
          (if sigma > 0 then Call.add_noise else Call.copy_image) ∧
        r.output.length = input.channels.length ∧
        (sigma > 0 →
          r.gen = ⟨gen.draws, gen.pos + 2 * (input.width * input.height) *
            input.channels.length⟩ ∧
          ∀ (ch : Nat) (inp : List K), input.channels[ch]? = some inp →
            ∃ out, r.output[ch]? = some out ∧
              add_noise m inp (List.replicate (input.width * input.height) 0) sigma o.t
                (input.width * input.height) o.b
                ⟨gen.draws, gen.pos + 2 * (input.width * input.height) * ch⟩ =
              some (out, ⟨gen.draws, gen.pos + 2 * (input.width * input.height) * (ch + 1)⟩)) ∧
        (¬ sigma > 0 → r.gen = gen ∧
          ∀ (ch : Nat) (inp : List K), input.channels[ch]? = some inp →
            r.output[ch]? = some inp)) ∧
    (input.wf → ∀ A B, o.g = none → o.A = some A → o.B = some B →
      ∃ r, algorithm m (some o) input gen = Except.ok (some r) ∧
        r.calls = List.replicate input.channels.length
          (if A > 0 ∨ B > 0 then Call.add_noise_affine else Call.copy_image) ∧
        r.output.length = input.channels.length ∧
        ((A > 0 ∨ B > 0) →
          r.gen = ⟨gen.draws, gen.pos + 2 * (input.width * input.height) *
            input.channels.length⟩ ∧
          ∀ (ch : Nat) (inp : List K), input.channels[ch]? = some inp →
            ∃ out, r.output[ch]? = some out ∧
              add_noise_affine m inp (List.replicate (input.width * input.height) 0) A B o.t
                (input.width * input.height) o.b
                ⟨gen.draws, gen.pos + 2 * (input.width * input.height) * ch⟩ =
              some (out, ⟨gen.draws, gen.pos + 2 * (input.width * input.height) * (ch + 1)⟩)) ∧
        (¬ (A > 0 ∨ B > 0) → r.gen = gen ∧
          ∀ (ch : Nat) (inp : List K), input.channels[ch]? = some inp →
            r.output[ch]? = some inp)) := by
  refine ⟨?_, ?_, ?_⟩
  · rcases o with ⟨g, A, B, b, t⟩
    cases g <;> cases A <;> cases B <;> simp [algorithm]
  · intro hwf sigma hg hAB
    obtain ⟨r, hr, hlen, hc, hgen, hch⟩ := algorithm_uniform m o input gen sigma hg hAB hwf
    refine ⟨r, hr, by rw [hc]; simp only [exact_guard], hlen, ?_, ?_⟩
    · intro hs
      have hs2 := (exact_guard sigma).mpr hs
      simp only [hs2, if_true, iterate_draws] at hgen hch
      refine ⟨hgen, ?_⟩
      intro ch inp hci
      obtain ⟨out, ho, hd⟩ := hch ch inp hci
      refine ⟨out, ho, ?_⟩
      have hs3 : Arith.lt (Arith.ofInt 0) sigma = true := hs2
      simp only [dispatch_uniform, exact_toFloat, hs3, if_true] at hd
      rcases hrun : add_noise m inp (List.replicate (input.width * input.height) 0) sigma o.t
        (input.width * input.height) o.b
        ⟨gen.draws, gen.pos + 2 * (input.width * input.height) * ch⟩ with _ | ⟨v, g2⟩
      · rw [hrun] at hd
        exact Option.noConfusion hd
      · rw [hrun] at hd
        simp only [Option.map_some', Option.some.injEq, Prod.mk.injEq] at hd
        rw [← hd.1, ← hd.2.1]
    · intro hs
      have hs2 : ¬ (Arith.lt (Arith.ofInt 0) (Arith.toFloat sigma) = true) :=
        fun h => hs ((exact_guard sigma).mp h)
      simp only [hs2, Bool.false_eq_true, if_false, Function.iterate_id, id] at hgen hch
      refine ⟨hgen, ?_⟩
      intro ch inp hci
      obtain ⟨out, ho, hd⟩ := hch ch inp hci
      have hlen2 : inp.length = input.width * input.height := hwf inp (List.getElem?_mem hci)
      have hs3 : ¬ (Arith.lt (Arith.ofInt 0) sigma = true) := hs2
      simp only [dispatch_uniform, exact_toFloat, hs3, Bool.false_eq_true, if_false,
        copy_image_eq inp _ _ hlen2 (List.length_replicate _ _), Option.map_some',
        Option.some.injEq, Prod.mk.injEq] at hd
      rw [ho, ← hd.1]
  · intro hwf A B hg hA hB
    obtain ⟨r, hr, hlen, hc, hgen, hch⟩ := algorithm_affine m o input gen A B hg hA hB hwf
    refine ⟨r, hr, by rw [hc]; simp only [exact_guard_or], hlen, ?_, ?_⟩
    · intro hs
      have hs2 := (exact_guard_or A B).mpr hs
      simp only [hs2, if_true, iterate_draws] at hgen hch
      refine ⟨hgen, ?_⟩
      intro ch inp hci
      obtain ⟨out, ho, hd⟩ := hch ch inp hci
      refine ⟨out, ho, ?_⟩
      have hs3 : (Arith.lt (Arith.ofInt 0) A || Arith.lt (Arith.ofInt 0) B) = true := hs2
      simp only [dispatch_affine, exact_toFloat, hs3, if_true] at hd
      rcases hrun : add_noise_affine m inp (List.replicate (input.width * input.height) 0) A B
        o.t (input.width * input.height) o.b
        ⟨gen.draws, gen.pos + 2 * (input.width * input.height) * ch⟩ with _ | ⟨v, g2⟩
      · rw [hrun] at hd
        exact Option.noConfusion hd
      · rw [hrun] at hd
        simp only [Option.map_some', Option.some.injEq, Prod.mk.injEq] at hd
        rw [← hd.1, ← hd.2.1]
    · intro hs
      have hs2 : ¬ ((Arith.lt (Arith.ofInt 0) (Arith.toFloat A) ||
          Arith.lt (Arith.ofInt 0) (Arith.toFloat B)) = true) :=
        fun h => hs ((exact_guard_or A B).mp h)
      simp only [hs2, Bool.false_eq_true, if_false, Function.iterate_id, id] at hgen hch
      refine ⟨hgen, ?_⟩
      intro ch inp hci
      obtain ⟨out, ho, hd⟩ := hch ch inp hci
      have hlen2 : inp.length = input.width * input.height := hwf inp (List.getElem?_mem hci)
      have hs3 : ¬ ((Arith.lt (Arith.ofInt 0) A || Arith.lt (Arith.ofInt 0) B) = true) := hs2
      simp only [dispatch_affine, exact_toFloat, hs3, Bool.false_eq_true, if_false,
        copy_image_eq inp _ _ hlen2 (List.length_replicate _ _), Option.map_some',
        Option.some.injEq, Prod.mk.injEq] at hd
      rw [ho, ← hd.1]

/-- The uniform model alone, `sigma = 2`, on a two-channel image of two
samples per channel: `add_noise` runs on both channels, the second one four
draws after the first, and the generator ends eight draws further. -/
theorem model_selection_witness :
    ∃ r, algorithm (⟨id, id, id, 3⟩ : Libm ℚ) (some ⟨some 2, none, some 1, 8, true⟩)
        ⟨2, 1, 8, [[5, 6], [7, 8]]⟩ ⟨fun k => 1 / 2 ^ (k + 1), 0⟩ = Except.ok (some r) ∧
      r.calls = [Call.add_noise, Call.add_noise] ∧ r.gen.pos = 8 ∧
      ∃ out, r.output[1]? = some out ∧
        add_noise (⟨id, id, id, 3⟩ : Libm ℚ) [7, 8] [0, 0] 2 true 2 8
          ⟨fun k => 1 / 2 ^ (k + 1), 4⟩ = some (out, ⟨fun k => 1 / 2 ^ (k + 1), 8⟩) := by
  obtain ⟨r, hr, hc, -, hpos, -⟩ := (model_selection (⟨id, id, id, 3⟩ : Libm ℚ)
    ⟨some 2, none, some 1, 8, true⟩ ⟨2, 1, 8, [[5, 6], [7, 8]]⟩
    ⟨fun k => 1 / 2 ^ (k + 1), 0⟩).2.1 (by simp [CImage.wf]) 2 rfl (by simp)
  obtain ⟨hgen, hch⟩ := hpos (by norm_num)
  obtain ⟨out, ho, hrun⟩ := hch 1 [7, 8] rfl
  refine ⟨r, hr, ?_, by rw [hgen]; rfl, out, ho, hrun⟩
  rw [hc]
  norm_num [List.replicate]

end fnoise

namespace fnoise

end fnoise

namespace fnoise

end fnoise

namespace fnoise

end fnoise

/-! ## Block-mean downscaling -/

namespace subscale

variable {F : Type} [Arith F]

/-- The index `C * r + c` of row `r`, column `c` is inside a table of `R` rows
of `C` entries. -/
theorem idx_lt (C R r c : Nat) (hr : r < R) (hc : c < C) : C * r + c < C * R := by
  have h : C * (r + 1) ≤ C * R := Nat.mul_le_mul_left C hr
  rw [Nat.mul_succ] at h
  omega

/-- The pixel `(ox*w + i, oy*w + j)` of block `(ox, oy)` is inside the image. -/
theorem read_idx_lt (Nx Ny w ox oy i j : Nat) (hox : ox < Nx / w) (hoy : oy < Ny / w)
    (hi : i < w) (hj : j < w) : Nx * (oy * w + j) + (ox * w + i) < Nx * Ny := by
  have h1 : ox * w + i < Nx := by
    have h := idx_lt w (Nx / w) ox i hox hi
    have h2 := Nat.mul_div_le Nx w
    rw [Nat.mul_comm] at h
    omega
  have h3 : oy * w + j < Ny := by
    have h := idx_lt w (Ny / w) oy j hoy hj
    have h2 := Nat.mul_div_le Ny w
    rw [Nat.mul_comm] at h
    omega
  exact idx_lt Nx Ny _ _ h3 h1

/-- A loop that updates an accumulator by `f` at every iteration is the left
fold of `f` over the indices. -/
theorem forLoop_fold {σ : Type} (n : Nat) (body : Nat → σ → Option σ) (f : σ → Nat → σ)
    (s : σ) (h : ∀ i, i < n → ∀ t, body i t = some (f t i)) :
    forLoop n body s = some ((List.range n).foldl f s) := by
  induction n with
  | zero => rfl
  | succ k ih =>
    rw [forLoop_succ, ih (fun i hi => h i (Nat.lt_succ_of_lt hi)), Option.some_bind,
      h k (Nat.lt_succ_self k), List.range_succ, List.foldl_append]
    rfl

/-- Two left folds over the same indices with functions that agree on them. -/
theorem foldl_range_congr {σ : Type} (n : Nat) (f g : σ → Nat → σ) (s : σ)
    (h : ∀ i, i < n → ∀ t, f t i = g t i) :
    (List.range n).foldl f s = (List.range n).foldl g s := by
  induction n with
  | zero => rfl
  | succ k ih =>
    rw [List.range_succ, List.foldl_append, List.foldl_append,
      ih (fun i hi => h i (Nat.lt_succ_of_lt hi))]
    simp [h k (Nat.lt_succ_self k)]

/-- Two nested loops whose iteration `(r, c)` writes `V r c` at position
`C * r + c` of a table held in the state: they end with the table filled. -/
theorem fill_loop {σ : Type} (tbl : σ → List F) (I : σ → Prop)
    (body : Nat → Nat → σ → Option σ) (V : Nat → Nat → F) (R C : Nat) (s0 : σ)
    (hI : I s0) (hlen : C * R ≤ (tbl s0).length)
    (hbody : ∀ r c s, r < R → c < C → I s → (tbl s).length = (tbl s0).length →
      ∃ s2, body r c s = some s2 ∧ I s2 ∧ tbl s2 = (tbl s).set (C * r + c) (V r c)) :
    ∃ s, forLoop R (fun r s1 => forLoop C (fun c s2 => body r c s2) s1) s0 = some s ∧
      I s ∧ (tbl s).length = (tbl s0).length ∧
      ∀ r c, r < R → c < C → (tbl s)[C * r + c]? = some (V r c) := by
  obtain ⟨s, hs, hIs, hls, hfill⟩ := forLoop_inv
    (fun r (s : σ) => I s ∧ (tbl s).length = (tbl s0).length ∧
      ∀ r2 c, r2 < r → c < C → (tbl s)[C * r2 + c]? = some (V r2 c))
    R (fun r s1 => forLoop C (fun c s2 => body r c s2) s1) s0
    ⟨hI, rfl, fun r2 c h => absurd h (Nat.not_lt_zero r2)⟩
    (by
      intro r hr t ⟨hIt, hlt, hft⟩
      obtain ⟨t2, ht2, hI2, hl2, hrows, hrow⟩ := forLoop_inv
        (fun c (s : σ) => I s ∧ (tbl s).length = (tbl s0).length ∧
          (∀ r2 c2, r2 < r → c2 < C → (tbl s)[C * r2 + c2]? = some (V r2 c2)) ∧
          ∀ c2, c2 < c → (tbl s)[C * r + c2]? = some (V r c2))
        C (fun c s2 => body r c s2) t
        ⟨hIt, hlt, hft, fun c2 h => absurd h (Nat.not_lt_zero c2)⟩
        (by
          intro c hc q ⟨hIq, hlq, hfq, hrq⟩
          obtain ⟨q2, hq2, hIq2, hset⟩ := hbody r c q hr hc hIq hlq
          have hin : C * r + c < (tbl q).length := by
            rw [hlq]
            exact lt_of_lt_of_le (idx_lt C R r c hr hc) hlen
          refine ⟨q2, hq2, hIq2, by rw [hset, List.length_set, hlq], ?_, ?_⟩
          · intro r2 c2 hr2 hc2
            have hne := idx_lt C r r2 c2 hr2 hc2
            rw [hset, List.getElem?_set_ne (by omega)]
            exact hfq r2 c2 hr2 hc2
          · intro c2 hc2
            rcases Nat.lt_succ_iff_lt_or_eq.mp hc2 with h | h
            · rw [hset, List.getElem?_set_ne (by omega)]
              exact hrq c2 h
            · subst h
              rw [hset, List.getElem?_set_self hin])
      refine ⟨t2, ht2, hI2, hl2, ?_⟩
      intro r2 c hr2 hc
      rcases Nat.lt_succ_iff_lt_or_eq.mp hr2 with h | h
      · exact hrows r2 c h hc
      · subst h
        exact hrow c hc)
  exact ⟨s, hs, hIs, hls, hfill⟩

/-- The mean that `get_block` and `mean_block` compute for the block
`(ox, oy)` of a channel: the accumulated sum `block_sum`, divided by `w*w`
converted to `float`. -/
theorem block_mean_eq (block inp : List F) (d : F) (ox oy Nx w : Nat)
    (hb : block.length = w * w)
    (hin : ∀ j i, j < w → i < w → Nx * (oy * w + j) + (ox * w + i) < inp.length) :
    ∃ blk, get_block block inp (ox * w) (oy * w) Nx w = some blk ∧ blk.length = w * w ∧
      mean_block blk w = some (Arith.fdiv (block_sum inp d Nx w ox oy)
        (Arith.ofInt ((w * w : Nat) : Int))) := by
  obtain ⟨blk, hblk, -, hlen, hfill⟩ := fill_loop (fun b : List F => b) (fun _ => True)
    (fun j i b2 => (rd inp (Nx * (oy * w + j) + (ox * w + i))).bind fun p => wr b2 (w * j + i) p)
    (fun j i => inp.getD (Nx * (oy * w + j) + (ox * w + i)) d) w w block trivial
    (le_of_eq hb.symm)
    (by
      intro j i b hj hi _ hlb
      refine ⟨_, ?_, trivial, rfl⟩
      have h1 := hin j i hj hi
      have hlb2 : b.length = block.length := hlb
      have h2 : w * j + i < b.length := by
        rw [hlb2, hb]
        exact idx_lt w w j i hj hi
      show (rd inp (Nx * (oy * w + j) + (ox * w + i))).bind (fun p => wr b (w * j + i) p) = _
      rw [rd_of_lt _ _ h1, Option.some_bind, wr_of_lt _ _ _ h2]
      simp [List.getD_eq_getElem?_getD, List.getElem?_eq_getElem h1])
  refine ⟨blk, hblk, by rw [hlen, hb], ?_⟩
  unfold mean_block block_sum
  rw [forLoop_fold w _ (fun s j => (List.range w).foldl (fun s2 i =>
      Arith.fadd s2 (inp.getD (Nx * (oy * w + j) + (ox * w + i)) d)) s) (Arith.ofInt 0)
    (by
      intro j hj t
      show forLoop w (fun i s2 => (rd blk (w * j + i)).bind fun p => some (Arith.fadd s2 p)) t = _
      exact forLoop_fold w _ (fun s2 i =>
        Arith.fadd s2 (inp.getD (Nx * (oy * w + j) + (ox * w + i)) d)) t
        (by
          intro i hi q
          show (rd blk (w * j + i)).bind (fun p => some (Arith.fadd q p)) = _
          rw [rd, hfill j i hj hi, Option.some_bind]))]
  rfl

/-- The `oy` and `ox` loops on one channel of `Nx * Ny` samples: they end, and
every pixel `(ox, oy)` of the output channel holds the mean of its block. -/
theorem channel_spec (inp block out : List F) (d : F) (Nx Ny w : Nat)
    (hin : inp.length = Nx * Ny)
    (hb : block.length = w * w) (ho : out.length = Nx / w * (Ny / w)) :
    ∃ s, channel inp Nx w (Nx / w) (Ny / w) (block, out) = some s ∧
      s.1.length = w * w ∧ s.2.length = Nx / w * (Ny / w) ∧
      ∀ oy ox, oy < Ny / w → ox < Nx / w →
        s.2[Nx / w * oy + ox]? = some (Arith.fdiv (block_sum inp d Nx w ox oy)
          (Arith.ofInt ((w * w : Nat) : Int))) := by
  obtain ⟨s, hs, hI, hlen, hfill⟩ := fill_loop (fun s : List F × List F => s.2)
    (fun s => s.1.length = w * w)
    (fun oy ox s2 => pixel inp Nx w (Nx / w) oy ox s2)
    (fun oy ox => Arith.fdiv (block_sum inp d Nx w ox oy) (Arith.ofInt ((w * w : Nat) : Int)))
    (Ny / w) (Nx / w) (block, out) hb (le_of_eq ho.symm)
    (by
      intro oy ox t hoy hox hIt hlt
      obtain ⟨blk, hblk, hblen, hmean⟩ := block_mean_eq t.1 inp d ox oy Nx w hIt
        (by
          intro j i hj hi
          rw [hin]
          exact read_idx_lt Nx Ny w ox oy i j hox hoy hi hj)
      have hlt2 : t.2.length = out.length := hlt
      have hidx : Nx / w * oy + ox < t.2.length := by
        rw [hlt2, ho]
        exact idx_lt (Nx / w) (Ny / w) oy ox hoy hox
      refine ⟨(blk, t.2.set (Nx / w * oy + ox) (Arith.fdiv (block_sum inp d Nx w ox oy)
        (Arith.ofInt ((w * w : Nat) : Int)))), ?_, hblen, rfl⟩
      show pixel inp Nx w (Nx / w) oy ox t = _
      unfold pixel
      rw [hblk, Option.some_bind, hmean, Option.some_bind, wr_of_lt _ _ _ hidx, Option.some_bind])
  exact ⟨s, hs, hI, by rw [hlen]; exact ho, hfill⟩

/-- Function `algorithm` on a well-formed image with a block side `w ≥ 1`:
the run ends, and every channel of the output holds the block means of the
channel of the input. -/
theorem algorithm_spec [Zero F] (w : Nat) (input : CImage F) (d : F) (hw : 1 ≤ w)
    (hwf : input.wf) :
    ∃ outs : List (List F),
      algorithm w input =
        some ⟨input.width / w, input.height / w, input.bits_per_channel, outs⟩ ∧
      outs.length = input.channels.length ∧
      (∀ c ∈ outs, c.length = input.width / w * (input.height / w)) ∧
      ∀ (ch : Nat) (inp : List F), input.channels[ch]? = some inp →
        ∃ out, outs[ch]? = some out ∧
          ∀ oy ox, oy < input.height / w → ox < input.width / w →
            out[input.width / w * oy + ox]? =
              some (Arith.fdiv (block_sum inp d input.width w ox oy)
                (Arith.ofInt ((w * w : Nat) : Int))) := by
  obtain ⟨s, hs, -, hlen, hall, hch⟩ := forLoop_inv
    (fun ch (s : List F × List (List F)) => s.1.length = w * w ∧
      s.2.length = input.channels.length ∧
      (∀ c ∈ s.2, c.length = input.width / w * (input.height / w)) ∧
      ∀ (ch2 : Nat) (inp : List F), ch2 < ch → input.channels[ch2]? = some inp →
        ∃ out, s.2[ch2]? = some out ∧
          ∀ oy ox, oy < input.height / w → ox < input.width / w →
            out[input.width / w * oy + ox]? =
              some (Arith.fdiv (block_sum inp d input.width w ox oy)
                (Arith.ofInt ((w * w : Nat) : Int))))
    input.channels.length
    (fun ch s =>
      (rd input.channels ch).bind fun inp =>
      (rd s.2 ch).bind fun out =>
      (channel inp input.width w (input.width / w) (input.height / w) (s.1, out)).bind fun r =>
      (wr s.2 ch r.2).bind fun o => some (r.1, o))
    (List.replicate (w * w) 0, (CImage.create (input.width / w) (input.height / w)
      input.bits_per_channel input.channels.length : CImage F).channels)
    ⟨by simp, by simp [CImage.create], by
      intro c hc
      simp only [CImage.create, List.mem_replicate] at hc
      rw [hc.2, List.length_replicate], fun ch2 inp h => absurd h (Nat.not_lt_zero ch2)⟩
    (by
      intro ch hch t ⟨hb, hlt, hallt, hdone⟩
      have hct : ch < t.2.length := by omega
      have hinp := hwf _ (List.getElem_mem hch)
      have hout := hallt _ (List.getElem_mem hct)
      obtain ⟨r, hr, hr1, hr2, hfill⟩ := channel_spec input.channels[ch] t.1 t.2[ch] d
        input.width input.height w hinp hb hout
      refine ⟨(r.1, t.2.set ch r.2), ?_, hr1, by simp [hlt], ?_, ?_⟩
      · show (rd input.channels ch).bind _ = _
        rw [rd_of_lt _ ch hch, Option.some_bind, rd_of_lt _ ch hct, Option.some_bind, hr,
          Option.some_bind, wr_of_lt _ ch _ hct, Option.some_bind]
      · intro c hc
        rcases List.mem_or_eq_of_mem_set hc with h | h
        · exact hallt c h
        · rw [h, hr2]
      · intro ch2 inp hch2 hinp2
        rcases Nat.lt_succ_iff_lt_or_eq.mp hch2 with h | h
        · obtain ⟨out, ho, hv⟩ := hdone ch2 inp h hinp2
          exact ⟨out, by rw [List.getElem?_set_ne (by omega)]; exact ho, hv⟩
        · subst h
          rw [List.getElem?_eq_getElem hch] at hinp2
          rw [← Option.some.inj hinp2]
          exact ⟨r.2, List.getElem?_set_self hct, hfill⟩)
  refine ⟨s.2, ?_, hlen, hall, ?_⟩
  · have hw0 : w ≠ 0 := by omega
    simp only [algorithm, hw0, if_false]
    rw [hs]
    rfl
  · intro ch inp hinp
    have hlt : ch < input.channels.length := by
      by_contra hge
      rw [List.getElem?_eq_none (by omega)] at hinp
      exact Option.noConfusion hinp
    exact hch ch inp hlt hinp

end subscale

namespace subscale

variable {F : Type} [Arith F]

end subscale

namespace subscale

variable {K : Type} [LinearOrderedField K]

/-- C10, index safety of the downscaler.  For a block side `w ≥ 1` and an
image of `Nx` by `Ny` samples, with `oNx = Nx / w` and `oNy = Ny / w`, every
read index `Nx*(oy*w + j) + (ox*w + i)` is below `Nx*Ny`, every block index
`w*j + i` is below `w*w` and every write index `oNx*oy + ox` is below
`oNx*oNy`; the divisor `w*w` is not zero; and no buffer access of the loops
faults, on one channel and on a whole well-formed image. -/
theorem index_safety (w Nx Ny : Nat) (hw : 1 ≤ w) :
    (∀ ox oy i j, ox < Nx / w → oy < Ny / w → i < w → j < w →
      Nx * (oy * w + j) + (ox * w + i) < Nx * Ny ∧ w * j + i < w * w ∧
      Nx / w * oy + ox < Nx / w * (Ny / w)) ∧
    ((w * w : Nat) : K) ≠ 0 ∧
    (∀ inp block out : List K, inp.length = Nx * Ny → block.length = w * w →
      out.length = Nx / w * (Ny / w) →
      (channel inp Nx w (Nx / w) (Ny / w) (block, out)).isSome = true) ∧
    (∀ input : CImage K, input.width = Nx → input.height = Ny → input.wf →
      (algorithm w input).isSome = true) := by
  refine ⟨?_, ?_, ?_, ?_⟩
  · intro ox oy i j hox hoy hi hj
    exact ⟨read_idx_lt Nx Ny w ox oy i j hox hoy hi hj, idx_lt w w j i hj hi,
      idx_lt (Nx / w) (Ny / w) oy ox hoy hox⟩
  · have h : w * w ≠ 0 := Nat.mul_ne_zero (by omega) (by omega)
    exact Nat.cast_ne_zero.mpr h
  · intro inp block out hin hb ho
    obtain ⟨s, hs, -⟩ := channel_spec inp block out 0 Nx Ny w hin hb ho
    rw [hs]
    rfl
  · intro input _ _ hwf
    obtain ⟨outs, hrun, -⟩ := algorithm_spec w input 0 hw hwf
    rw [hrun]
    rfl

/-- The indices of the last pixel of the last block of a 5-by-3 image with
`w = 2`, and the run on the image of samples `0`. -/
theorem index_safety_witness :
    (5 * (0 * 2 + 1) + (1 * 2 + 1) < 5 * 3 ∧ 2 * 1 + 1 < 2 * 2 ∧
      5 / 2 * 0 + 1 < 5 / 2 * (3 / 2)) ∧
    (algorithm 2 (⟨5, 3, 8, [List.replicate 15 (0 : ℚ)]⟩ : CImage ℚ)).isSome = true :=
  ⟨(index_safety 2 5 3 (by decide) : _ ∧ ((2 * 2 : Nat) : ℚ) ≠ 0 ∧ _ ∧ _).1 1 0 1 1
    (by decide) (by decide) (by decide) (by decide),
   (index_safety 2 5 3 (by decide)).2.2.2 ⟨5, 3, 8, [List.replicate 15 (0 : ℚ)]⟩ rfl rfl
    (by simp [CImage.wf])⟩

end subscale
